import Mathlib

/-!
Verification of the function/closure calling core (`src/eval/func.rs`) and the
copy-on-write array value (`src/eval/array.rs`) of the document-scripting
evaluator, against its natural-language specification.

The Rust source is shallowly embedded: machine integers `i64` become `Int`
(no arithmetic here can overflow an `i64`: lengths are vector lengths and the
only additions are `len + index` with `index < 0`, mirroring the always-
successful `checked_add`), `usize` indices become `Nat`, fallible functions
return `Except`, and `&mut` state is passed explicitly.  External
collaborators absent from the given sources (the dynamic `Value` type, `Args`,
`Scope`, `Flow`, `StyleMap`) are modelled from the specification, as marked on
each definition.
-/

/-- Modelled from the spec: the opaque dynamic value type (§1, §6).  Only a
slice of variants is needed: cloneability, equality, "is an array"
discrimination, and a partial order on some variants (integers and booleans
compare within their own type; nothing compares across types, and arrays do
not compare at all). -/
inductive Value where
  | none
  | bool (b : Bool)
  | int (i : Int)
  | arr (items : List Value)

/-- Modelled from the spec: the `type_name` of a value, used only in the
"cannot order A and B" message of `sorted`. -/
def Value.type_name : Value → String
  | .none => "none"
  | .bool _ => "boolean"
  | .int _ => "integer"
  | .arr _ => "array"

/-- Three-way comparison on `Int`, standing in for `i64::partial_cmp`. -/
def cmpInt (a b : Int) : Ordering :=
  if a < b then .lt else if a = b then .eq else .gt

/-- Three-way comparison on `Bool` with `false < true`, standing in for
`bool::partial_cmp`. -/
def cmpBool (a b : Bool) : Ordering :=
  if a = b then .eq else if b then .lt else .gt

/-- Modelled from the spec: `Value`'s `PartialOrd::partial_cmp` — same-type
integers and booleans compare, every other pair is incomparable. -/
def Value.pcmp : Value → Value → Option Ordering
  | .int a, .int b => some (cmpInt a b)
  | .bool a, .bool b => some (cmpBool a b)
  | _, _ => Option.none

/-- Embedding of `Array` (`src/eval/array.rs` line 25): an array of values
with clone-on-write value semantics.  For the content-level operations the
`Arc` is dropped (sharing is unobservable through them); the aliasing
behaviour of the `Arc` itself is modelled separately by `CowWorld` below.
Named `Arr` because `Array` is taken by Lean's builtin type. -/
structure Arr where
  items : List Value

/-- Embedding of `Array::len`: the length of the array as an `i64`. -/
def Arr.len (a : Arr) : Int :=
  (a.items.length : Int)

/-- Embedding of `Array::locate` (lines 243-251): resolve a signed logical
index; a negative index counts from `len`, and a still-negative result
(the `usize::try_from` failure) is `none`. -/
def Arr.locate (a : Arr) (index : Int) : Option Nat :=
  if 0 ≤ index then
    some index.toNat
  else
    let r := a.len + index
    if 0 ≤ r then some r.toNat else Option.none

/-- Embedding of the `out_of_bounds` message function (lines 254-257). -/
def out_of_bounds (index : Int) (len : Int) : String :=
  "array index out of bounds (index: " ++ toString index ++ ", len: " ++ toString len ++ ")"

/-- Embedding of `Array::get` (lines 49-53). -/
def Arr.get (a : Arr) (index : Int) : Except String Value :=
  match (Arr.locate a index).bind (fun i => a.items[i]?) with
  | some v => .ok v
  | Option.none => .error (out_of_bounds index a.len)

/-- Embedding of the `.filter(|&i| i <= self.0.len())` step used by `slice`
(and by `insert`/`remove`): keep a resolved index only if it is at most
`len`. -/
def checkIndex (o : Option Nat) (len : Nat) : Option Nat :=
  match o with
  | some i => if i ≤ len then some i else Option.none
  | Option.none => Option.none

/-- Embedding of `Array::slice` (lines 104-119): resolve and bounds-check
`start`, default `end` to `len`, resolve and bounds-check it, floor it at
`start` (`.max(start)`), and copy out the subrange. -/
def Arr.slice (a : Arr) (start : Int) (stop : Option Int) : Except String Arr :=
  match checkIndex (Arr.locate a start) a.items.length with
  | Option.none => .error (out_of_bounds start a.len)
  | some s =>
    match checkIndex (Arr.locate a (stop.getD a.len)) a.items.length with
    | Option.none => .error (out_of_bounds (stop.getD a.len) a.len)
    | some e => .ok ⟨(a.items.drop s).take (max e s - s)⟩

/-- The resolved (logical → physical, still signed) index of the public
contract: `i ≥ 0` addresses `i`, `i < 0` addresses `len + i` (§3). -/
def resolveIndex (len : Int) (index : Int) : Int :=
  if 0 ≤ index then index else len + index

theorem locate_eq_resolveIndex (a : Arr) (i : Int) :
    Arr.locate a i =
      if 0 ≤ resolveIndex a.len i then some (resolveIndex a.len i).toNat else Option.none := by
  unfold Arr.locate resolveIndex
  by_cases h : 0 ≤ i
  · simp [h]
  · simp [h]

theorem checkIndex_locate (a : Arr) (i : Int) :
    checkIndex (Arr.locate a i) a.items.length =
      if 0 ≤ resolveIndex a.len i ∧ resolveIndex a.len i ≤ a.len then
        some (resolveIndex a.len i).toNat
      else Option.none := by
  rw [locate_eq_resolveIndex]
  by_cases h0 : 0 ≤ resolveIndex a.len i
  · by_cases h1 : resolveIndex a.len i ≤ a.len
    · have : (resolveIndex a.len i).toNat ≤ a.items.length := by
        unfold Arr.len at h1 ⊢
        omega
      simp [h0, h1, checkIndex, this]
    · have : ¬ (resolveIndex a.len i).toNat ≤ a.items.length := by
        unfold Arr.len at h1 ⊢
        omega
      simp [h0, h1, checkIndex, this]
  · simp [h0, checkIndex]

/-- Claim C8: for every non-empty array `a` and index `0 ≤ i < len`, `get i`
returns the same result as `get (i - len)` (the negative alias of the same
slot), and `get` fails with the out-of-bounds message naming the requested
index and the current length exactly when the resolved index lies outside
`[0, len)`. -/
theorem c8_get_negative_alias (a : Arr) (i : Int) :
    (0 ≤ i → i < a.len → Arr.get a i = Arr.get a (i - a.len))
    ∧ (Arr.get a i = .error (out_of_bounds i a.len) ↔
        ¬ (0 ≤ resolveIndex a.len i ∧ resolveIndex a.len i < a.len)) := by
  have hlen : a.len = (a.items.length : Int) := rfl
  constructor
  · intro h0 hl
    have hneg : ¬ 0 ≤ i - a.len := by omega
    have h1 : Arr.locate a i = some i.toNat := by
      rw [locate_eq_resolveIndex]
      simp [resolveIndex, h0]
    have h2 : Arr.locate a (i - a.len) = some i.toNat := by
      rw [locate_eq_resolveIndex]
      have hres : resolveIndex a.len (i - a.len) = i := by
        unfold resolveIndex
        rw [if_neg hneg]
        omega
      rw [hres]
      simp [h0]
    have hlt : i.toNat < a.items.length := by omega
    unfold Arr.get
    rw [h1, h2]
    cases hx : a.items[i.toNat]? with
    | some v => simp [hx]
    | none =>
      exfalso
      have := List.getElem?_eq_none_iff.mp hx
      omega
  · rw [Arr.get, locate_eq_resolveIndex]
    by_cases h0 : 0 ≤ resolveIndex a.len i
    · by_cases h1 : resolveIndex a.len i < a.len
      · have hlt : (resolveIndex a.len i).toNat < a.items.length := by omega
        cases hx : a.items[(resolveIndex a.len i).toNat]? with
        | some v => simp [hx, h0, h1]
        | none =>
          exfalso
          have := List.getElem?_eq_none_iff.mp hx
          omega
      · have hge : a.items.length ≤ (resolveIndex a.len i).toNat := by omega
        have hx : a.items[(resolveIndex a.len i).toNat]? = Option.none :=
          List.getElem?_eq_none hge
        simp [hx, h0, h1]
    · simp [h0]

/-- Claim C5: `slice(start, end?)` fails with the out-of-bounds error unless
the resolved start and the resolved end (the end defaulting to `len`) both
lie in `[0, len]`; when both are in range and the resolved end is below the
resolved start the result is the empty array, never an error. -/
theorem c5_slice_clamps (a : Arr) (start : Int) (stop : Option Int) :
    (¬ (0 ≤ resolveIndex a.len start ∧ resolveIndex a.len start ≤ a.len) →
      Arr.slice a start stop = .error (out_of_bounds start a.len))
    ∧ ((0 ≤ resolveIndex a.len start ∧ resolveIndex a.len start ≤ a.len) →
        ¬ (0 ≤ resolveIndex a.len (stop.getD a.len) ∧
            resolveIndex a.len (stop.getD a.len) ≤ a.len) →
        Arr.slice a start stop = .error (out_of_bounds (stop.getD a.len) a.len))
    ∧ ((0 ≤ resolveIndex a.len start ∧ resolveIndex a.len start ≤ a.len) →
        (0 ≤ resolveIndex a.len (stop.getD a.len) ∧
            resolveIndex a.len (stop.getD a.len) ≤ a.len) →
        (∃ out, Arr.slice a start stop = .ok out)
        ∧ (resolveIndex a.len (stop.getD a.len) < resolveIndex a.len start →
            Arr.slice a start stop = .ok ⟨[]⟩)) := by
  refine ⟨?_, ?_, ?_⟩
  · intro h
    unfold Arr.slice
    rw [checkIndex_locate]
    simp [h]
  · intro hs he
    unfold Arr.slice
    rw [checkIndex_locate, checkIndex_locate]
    simp [hs, he]
  · intro hs he
    unfold Arr.slice
    rw [checkIndex_locate, checkIndex_locate, if_pos hs, if_pos he]
    constructor
    · exact ⟨_, rfl⟩
    · intro hlt
      have h1 : (resolveIndex a.len (stop.getD a.len)).toNat ≤
          (resolveIndex a.len start).toNat := by
        omega
      simp [Nat.max_eq_right h1]

/-- Witness for C8 at a concrete array: index `1` of `(1, 2, 3)` and its
negative alias `-2` agree, and index `5` resolves out of range. -/
theorem c8_witness :
    (Arr.get ⟨[Value.int 1, Value.int 2, Value.int 3]⟩ 1 =
      Arr.get ⟨[Value.int 1, Value.int 2, Value.int 3]⟩ (1 - Arr.len ⟨[Value.int 1, Value.int 2, Value.int 3]⟩))
    ∧ (Arr.get ⟨[Value.int 1, Value.int 2, Value.int 3]⟩ 5 =
        .error (out_of_bounds 5 (Arr.len ⟨[Value.int 1, Value.int 2, Value.int 3]⟩))) := by
  constructor
  · exact (c8_get_negative_alias ⟨[Value.int 1, Value.int 2, Value.int 3]⟩ 1).1
      (by decide) (by decide)
  · exact (c8_get_negative_alias ⟨[Value.int 1, Value.int 2, Value.int 3]⟩ 5).2.mpr
      (by decide)

/-- Witness for C5 at a concrete array: `slice(2, 1)` on `(7, 8, 9)` is the
empty array, and `slice(5, none)` is out of bounds. -/
theorem c5_witness :
    Arr.slice ⟨[Value.int 7, Value.int 8, Value.int 9]⟩ 2 (some 1) = .ok ⟨[]⟩
    ∧ Arr.slice ⟨[Value.int 7, Value.int 8, Value.int 9]⟩ 5 Option.none =
        .error (out_of_bounds 5 3) := by
  constructor
  · exact ((c5_slice_clamps ⟨[Value.int 7, Value.int 8, Value.int 9]⟩ 2 (some 1)).2.2
      (by decide) (by decide)).2 (by decide)
  · exact (c5_slice_clamps ⟨[Value.int 7, Value.int 8, Value.int 9]⟩ 5 Option.none).1
      (by decide)

/-! ## The calling protocol of `src/eval/func.rs` -/

/-- Source identifiers making up the recursion route (opaque tokens). -/
abbrev SourceId := Nat

/-- Modelled from the spec: the non-local control-flow signal of the
EvalContext contract (§6): `none | return-with-value | return-without-value |
other non-local signal` — the others being `break` and `continue`.  Source
spans are dropped (opaque tokens never inspected by this core).  Named
`CtrlFlow` because `Flow` is taken by Mathlib. -/
inductive CtrlFlow where
  | brk
  | cont
  | ret (value : Option Value)

/-- The error taxonomy surfaced by the calling protocol (§7); messages of
span-carrying failures are abstracted to their kind. -/
inductive EvalError where
  | missingArgument (param : String)
  | unexpectedArgument
  | forbiddenControlFlow
  | message (msg : String)
deriving DecidableEq

/-- Modelled from the spec: one entry of the `Args` collaborator — an
optional name and a value (§2); spans are dropped. -/
structure Arg where
  name : Option String
  value : Value

/-- Modelled from the spec: the `Args` collaborator — an ordered list of
entries consumed by position or by name (§2, §6). -/
structure Args where
  items : List Arg

/-- Remove the first list entry satisfying `p`, returning it and the list
with only that entry deleted (order of the rest preserved). -/
def takeFirst (p : Arg → Bool) : List Arg → Option (Arg × List Arg)
  | [] => Option.none
  | a :: rest =>
    if p a then some (a, rest)
    else (takeFirst p rest).map (fun br => (br.1, a :: br.2))

/-- Modelled from the spec: `Args::expect(name)` — "require a
positional-or-named argument matching that name (MissingArgument error if
absent)" (§4.2 step 2, §6): consume the first argument that is positional or
named with the given name. -/
def Args.expect (a : Args) (param : String) : Except EvalError (Value × Args) :=
  match takeFirst (fun arg => arg.name.isNone || arg.name == some param) a.items with
  | some (arg, rest) => .ok (arg.value, ⟨rest⟩)
  | Option.none => .error (.missingArgument param)

/-- Modelled from the spec: `Args::named(name) -> Option` (§6) — find and
consume the named argument of that name (positional arguments are never
considered). -/
def Args.named (a : Args) (param : String) : Option Value × Args :=
  match takeFirst (fun arg => arg.name == some param) a.items with
  | some (arg, rest) => (some arg.value, ⟨rest⟩)
  | Option.none => (Option.none, a)

/-- Modelled from the spec: `Args::take()` — drain all remaining arguments
in order (§6); the drained values feed the sink sequence. -/
def Args.take (a : Args) : List Value × Args :=
  (a.items.map (fun arg => arg.value), ⟨[]⟩)

/-- Modelled from the spec: `Args::finish()` — assert full consumption,
UnexpectedArgument error if anything remains (§6). -/
def Args.finish (a : Args) : Except EvalError Unit :=
  if a.items.isEmpty then .ok () else .error .unexpectedArgument

/-- Modelled from the spec: the variable-scope storage supporting the
capture-and-define contract (§1, §4.2 step 1): `define` makes later lookups
of that name see the new value, shadowing any earlier binding. -/
abbrev Scope := List (String × Value)

/-- Modelled from the spec: `Scope::define` — bind a name in the scope,
shadowing an existing binding of the same name. -/
def Scope.define (s : Scope) (n : String) (v : Value) : Scope :=
  (n, v) :: s

/-- Modelled from the spec: name lookup in a scope (most recent binding
wins). -/
def Scope.get : Scope → String → Option Value
  | [], _ => Option.none
  | (n, v) :: rest, q => if n = q then some v else Scope.get rest q

/-- Embedding of `Closure` (lines 183-197): defining source, optional name,
captured-scope snapshot, parameter list (a parameter with a default value is
a named parameter), optional sink name.  The body expression is not carried;
its evaluation is passed to `Closure.call` as an oracle. -/
structure Closure where
  location : Option SourceId
  name : Option String
  captured : Scope
  params : List (String × Option Value)
  sink : Option String

/-- Embedding of the parameter loop of `Closure::call` (lines 208-215): for
each declared parameter in order, a parameter without default is bound via
`expect` (positional-or-named), a parameter with default via `named` only,
falling back to the default value; each binding is defined into the top
scope. -/
def bindParams (params : List (String × Option Value)) (scope : Scope) (args : Args) :
    Except EvalError (Scope × Args) :=
  match params with
  | [] => .ok (scope, args)
  | (param, Option.none) :: rest =>
    match args.expect param with
    | .error e => .error e
    | .ok (v, args') => bindParams rest (Scope.define scope param v) args'
  | (param, some d) :: rest =>
    match args.named param with
    | (found, args') => bindParams rest (Scope.define scope param (found.getD d)) args'

/-- Embedding of the scope-building phase of `Closure::call` (lines 204-219):
a fresh scope whose top is the captured snapshot, the parameters bound into
it, then the remaining arguments collected into the sink (if declared) as a
new array value defined into the same top scope. -/
def closureScope (c : Closure) (args : Args) : Except EvalError (Scope × Args) :=
  match bindParams c.params c.captured args with
  | .error e => .error e
  | .ok (scope, args') =>
    match c.sink with
    | some sink =>
      .ok (Scope.define scope sink (Value.arr (Args.take args').1), (Args.take args').2)
    | Option.none => .ok (scope, args')

/-- Embedding of the route determination of `Closure::call` (lines 222-228):
a detached caller (empty route) starts a fresh route from the closure's
defining source (`self.location.into_iter().collect()`); otherwise the
caller's route is inherited unchanged. -/
def chooseRoute (route : List SourceId) (location : Option SourceId) : List SourceId :=
  let detached := route.isEmpty
  if detached then location.toList else route

/-- The caller-visible execution context: recursion route and dependency
set (the fields of `Machine` this core reads and writes). -/
structure Machine where
  route : List SourceId
  deps : List SourceId

/-- What evaluating the closure body in the sub-machine produces: the body's
result, the sub-machine's control-flow signal, and its accumulated
dependencies. -/
structure BodyOutcome where
  result : Except EvalError Value
  flow : Option CtrlFlow
  deps : List SourceId

/-- Embedding of the control-flow handling of `Closure::call` (lines
236-243): explicit return-with-value yields that value, bare return falls
through to the body's result, any other signal is forbidden, no signal falls
through to the body's result. -/
def resolveFlow (flow : Option CtrlFlow) (result : Except EvalError Value) :
    Except EvalError Value :=
  match flow with
  | some (.ret (some explicit)) => .ok explicit
  | some (.ret Option.none) => result
  | some _ => .error .forbiddenControlFlow
  | Option.none => result

/-- Embedding of `Closure::call` (lines 201-244).  `evalBody` is the oracle
standing for `self.body.eval(&mut sub)`: it receives the route and scope the
sub-machine is built from and yields the body's outcome.  The caller's
dependency set is extended with the sub-machine's before control flow is
inspected. -/
def Closure.call (c : Closure) (evalBody : List SourceId → Scope → BodyOutcome)
    (vm : Machine) (args : Args) : Except EvalError Value × Machine × Args :=
  match closureScope c args with
  | .error e => (.error e, vm, args)
  | .ok (scope, args') =>
    let route := chooseRoute vm.route c.location
    let out := evalBody route scope
    let vm' : Machine := { vm with deps := vm.deps ++ out.deps }
    (resolveFlow out.flow out.result, vm', args')

/-- Modelled from the spec: the style map produced by a native set-rule,
opaque to this core (§6). -/
structure StyleMap where
  entries : List (String × Value)

/-- Embedding of `StyleMap::new()`: the empty style map. -/
def StyleMap.new : StyleMap :=
  ⟨[]⟩

/-- Embedding of `Repr` (lines 19-26), the three kinds of function
representations behind a `Func` handle.  Named `FuncRepr` because `Repr` is
a core Lean class.  The native entry points are modelled as oracles; a
native's optional set-rule consumes arguments and yields a style map. -/
inductive FuncRepr where
  | native (name : String) (func : Args → Except EvalError (Value × Args))
      (setRule : Option (Args → Except EvalError (StyleMap × Args)))
      (node : Option Nat)
  | closure (c : Closure)
  | withApplied (wrapped : FuncRepr) (applied : Args)

/-- Embedding of `Func::set` (lines 109-116): run the native set-rule if
present (else an empty style map), then assert full argument consumption in
every case. -/
def Func.set (f : FuncRepr) (args : Args) : Except EvalError StyleMap :=
  match (match f with
    | .native _ _ (some setRule) _ => setRule args
    | _ => .ok (StyleMap.new, args)) with
  | .error e => .error e
  | .ok (styles, args') =>
    match args'.finish with
    | .error e => .error e
    | .ok _ => .ok styles

/-- The set-rule carried by a function representation, if any: `some` only
for a native with a set-rule. -/
def FuncRepr.setRuleOf : FuncRepr → Option (Args → Except EvalError (StyleMap × Args))
  | .native _ _ s _ => s
  | _ => Option.none

/-! ## Argument-consumption lemmas -/

theorem takeFirst_eq_none (p : Arg → Bool) (l : List Arg) (h : ∀ x ∈ l, p x = false) :
    takeFirst p l = Option.none := by
  induction l with
  | nil => rfl
  | cons a rest ih =>
    have ha := h a (List.mem_cons_self a rest)
    have hr := ih (fun x hx => h x (List.mem_cons_of_mem a hx))
    simp [takeFirst, ha, hr]

theorem takeFirst_append (p : Arg → Bool) (pre post : List Arg) (a : Arg)
    (hpre : ∀ b ∈ pre, p b = false) (ha : p a = true) :
    takeFirst p (pre ++ a :: post) = some (a, pre ++ post) := by
  induction pre with
  | nil => simp [takeFirst, ha]
  | cons b pre ih =>
    have hb := hpre b (List.mem_cons_self b pre)
    have hr := ih (fun x hx => hpre x (List.mem_cons_of_mem b hx))
    simp [takeFirst, hb, hr]

/-- Claim C1: in the parameter loop, a parameter without default is satisfied
by the first positional-or-named argument of that name and is a
MissingArgument error when no such argument exists, while a parameter with a
default value is bound only from a named argument of that name — positional
arguments are never consumed for it — and otherwise takes the default
value; binding proceeds in declaration order (head parameter first, then the
rest with the updated scope and remaining arguments). -/
theorem c1_param_binding (p : String) (dv : Value) (rest : List (String × Option Value))
    (s : Scope) (args : Args) :
    ((∀ arg ∈ args.items, ¬ (arg.name = Option.none ∨ arg.name = some p)) →
        bindParams ((p, Option.none) :: rest) s args = .error (.missingArgument p))
    ∧ (∀ pre arg post, args.items = pre ++ arg :: post →
        (∀ b ∈ pre, ¬ (b.name = Option.none ∨ b.name = some p)) →
        (arg.name = Option.none ∨ arg.name = some p) →
        bindParams ((p, Option.none) :: rest) s args =
          bindParams rest (Scope.define s p arg.value) ⟨pre ++ post⟩)
    ∧ ((∀ arg ∈ args.items, arg.name ≠ some p) →
        bindParams ((p, some dv) :: rest) s args =
          bindParams rest (Scope.define s p dv) args)
    ∧ (∀ pre arg post, args.items = pre ++ arg :: post →
        (∀ b ∈ pre, b.name ≠ some p) →
        arg.name = some p →
        bindParams ((p, some dv) :: rest) s args =
          bindParams rest (Scope.define s p arg.value) ⟨pre ++ post⟩) := by
  refine ⟨?_, ?_, ?_, ?_⟩
  · intro h
    have hnone : takeFirst (fun arg => arg.name.isNone || arg.name == some p) args.items
        = Option.none := by
      apply takeFirst_eq_none
      intro x hx
      have hh := h x hx
      push_neg at hh
      simp [Option.isNone_iff_eq_none, Option.isSome_iff_ne_none, hh.1, hh.2]
    simp [bindParams, Args.expect, hnone]
  · intro pre arg post heq hpre harg
    have htake : takeFirst (fun b => b.name.isNone || b.name == some p) args.items
        = some (arg, pre ++ post) := by
      rw [heq]
      apply takeFirst_append
      · intro b hb
        have hh := hpre b hb
        push_neg at hh
        simp [Option.isNone_iff_eq_none, Option.isSome_iff_ne_none, hh.1, hh.2]
      · rcases harg with h | h <;> simp [h]
    simp [bindParams, Args.expect, htake]
  · intro h
    have hnone : takeFirst (fun arg => arg.name == some p) args.items = Option.none := by
      apply takeFirst_eq_none
      intro x hx
      simp [h x hx]
    simp [bindParams, Args.named, hnone]
  · intro pre arg post heq hpre harg
    have htake : takeFirst (fun b => b.name == some p) args.items
        = some (arg, pre ++ post) := by
      rw [heq]
      apply takeFirst_append
      · intro b hb
        simp [hpre b hb]
      · simp [harg]
    simp [bindParams, Args.named, htake, harg]

/-- Witness for C1: a defaulted parameter ignores a positional argument and
takes its default; a parameter without default and no argument at all is a
MissingArgument error. -/
theorem c1_witness :
    bindParams [("p", some (Value.int 0))] [] ⟨[⟨Option.none, Value.int 9⟩]⟩ =
        bindParams [] (Scope.define [] "p" (Value.int 0)) ⟨[⟨Option.none, Value.int 9⟩]⟩
    ∧ bindParams [("p", Option.none)] [] ⟨[]⟩ = .error (.missingArgument "p") := by
  constructor
  · exact (c1_param_binding "p" (Value.int 0) [] [] ⟨[⟨Option.none, Value.int 9⟩]⟩).2.2.1
      (by decide)
  · exact (c1_param_binding "p" (Value.int 0) [] [] ⟨[]⟩).1 (by simp)

/-! ## Scope-shadowing lemmas -/

theorem bindParams_shift (params : List (String × Option Value)) (s : Scope) (args : Args) :
    bindParams params s args =
      match bindParams params [] args with
      | .ok pa => .ok (pa.1 ++ s, pa.2)
      | .error e => .error e := by
  induction params generalizing s args with
  | nil => simp [bindParams]
  | cons pd rest ih =>
    obtain ⟨p, d⟩ := pd
    cases d with
    | none =>
      cases hx : Args.expect args p with
      | error e => simp [bindParams, hx]
      | ok va =>
        obtain ⟨v, args'⟩ := va
        simp only [bindParams, hx]
        rw [ih (Scope.define s p v) args', ih (Scope.define [] p v) args']
        cases bindParams rest [] args' with
        | error e => rfl
        | ok pa => simp [Scope.define]
    | some dv =>
      rcases hn : Args.named args p with ⟨found, args'⟩
      simp only [bindParams, hn]
      rw [ih (Scope.define s p (found.getD dv)) args',
        ih (Scope.define [] p (found.getD dv)) args']
      cases bindParams rest [] args' with
      | error e => rfl
      | ok pa => simp [Scope.define]

theorem bindParams_names (params : List (String × Option Value)) (args : Args)
    (pre : Scope) (a' : Args) (h : bindParams params [] args = .ok (pre, a')) :
    pre.map Prod.fst = (params.map Prod.fst).reverse := by
  induction params generalizing args pre a' with
  | nil =>
    simp [bindParams] at h
    simp [h.1.symm]
  | cons pd rest ih =>
    obtain ⟨p, d⟩ := pd
    cases d with
    | none =>
      cases hx : Args.expect args p with
      | error e => simp [bindParams, hx] at h
      | ok va =>
        obtain ⟨v, args'⟩ := va
        simp only [bindParams, hx] at h
        rw [bindParams_shift rest (Scope.define [] p v) args'] at h
        cases hy : bindParams rest [] args' with
        | error e => rw [hy] at h; exact absurd h (by simp)
        | ok pa =>
          rw [hy] at h
          simp only [Except.ok.injEq, Prod.mk.injEq] at h
          have hnames := ih args' pa.1 pa.2 (by rw [hy])
          rw [← h.1]
          simp [Scope.define, hnames]
    | some dv =>
      rcases hn : Args.named args p with ⟨found, args'⟩
      simp only [bindParams, hn] at h
      rw [bindParams_shift rest (Scope.define [] p (found.getD dv)) args'] at h
      cases hy : bindParams rest [] args' with
      | error e => rw [hy] at h; exact absurd h (by simp)
      | ok pa =>
        rw [hy] at h
        simp only [Except.ok.injEq, Prod.mk.injEq] at h
        have hnames := ih args' pa.1 pa.2 (by rw [hy])
        rw [← h.1]
        simp [Scope.define, hnames]

theorem scope_get_append (l1 l2 : Scope) (q : String) :
    Scope.get (l1 ++ l2) q =
      match Scope.get l1 q with
      | some v => some v
      | Option.none => Scope.get l2 q := by
  induction l1 with
  | nil => simp [Scope.get]
  | cons nv rest ih =>
    obtain ⟨n, v⟩ := nv
    by_cases h : n = q
    · simp [Scope.get, h]
    · simp [Scope.get, h, ih]

theorem scope_get_isSome_of_mem (l : Scope) (q : String) (h : q ∈ l.map Prod.fst) :
    ∃ v, Scope.get l q = some v := by
  induction l with
  | nil => simp at h
  | cons nv rest ih =>
    obtain ⟨n, v⟩ := nv
    by_cases hn : n = q
    · exact ⟨v, by simp [Scope.get, hn]⟩
    · have : q ∈ rest.map Prod.fst := by
        simp at h
        rcases h with h | h
        · exact absurd h.symm hn
        · simpa using h
      obtain ⟨w, hw⟩ := ih this
      exact ⟨w, by simp [Scope.get, hn, hw]⟩

/-- Claim C9: a parameter or sink whose name coincides with a binding in the
captured snapshot shadows it for the body — the scope the body sees looks up
that name to the argument-bound (or sink) value, independent of what the
captured scope bound it to: replacing the whole captured scope changes
neither the success of binding, the leftover arguments, nor the value
observed at any parameter or sink name. -/
theorem c9_shadowing (c : Closure) (args : Args) (scope : Scope) (rest : Args)
    (K : Scope) (q : String)
    (hbind : closureScope c args = .ok (scope, rest))
    (hq : q ∈ c.params.map Prod.fst ∨ c.sink = some q) :
    ∃ scope2, closureScope { c with captured := K } args = .ok (scope2, rest)
      ∧ Scope.get scope2 q = Scope.get scope q := by
  unfold closureScope at hbind ⊢
  rw [bindParams_shift] at hbind
  rw [bindParams_shift]
  cases hb : bindParams c.params [] args with
  | error e => rw [hb] at hbind; exact absurd hbind (by simp)
  | ok pa =>
    rw [hb] at hbind
    obtain ⟨pre, a'⟩ := pa
    have hnames := bindParams_names c.params args pre a' hb
    have hqpre : q ∈ c.params.map Prod.fst → ∃ v, Scope.get pre q = some v := by
      intro hqp
      apply scope_get_isSome_of_mem
      rw [hnames]
      simpa using hqp
    cases hs : c.sink with
    | none =>
      rw [hs] at hbind
      simp only [Except.ok.injEq, Prod.mk.injEq] at hbind
      refine ⟨pre ++ K, by simp [hbind.2], ?_⟩
      rcases hq with hqp | hqs
      · obtain ⟨v, hv⟩ := hqpre hqp
        rw [← hbind.1, scope_get_append, scope_get_append, hv]
      · rw [hs] at hqs
        exact absurd hqs (by simp)
    | some k =>
      rw [hs] at hbind
      simp only [Except.ok.injEq, Prod.mk.injEq] at hbind
      refine ⟨Scope.define (pre ++ K) k (Value.arr (Args.take a').1), by simp [hbind.2], ?_⟩
      by_cases hk : k = q
      · rw [← hbind.1]
        simp [Scope.define, Scope.get, hk]
      · rcases hq with hqp | hqs
        · obtain ⟨v, hv⟩ := hqpre hqp
          rw [← hbind.1]
          simp only [Scope.define, Scope.get, if_neg hk]
          rw [scope_get_append, scope_get_append, hv]
        · rw [hs] at hqs
          simp at hqs
          exact absurd hqs hk

/-- Witness for C9: the parameter `x` shadows the captured binding of `x`;
swapping the captured scope for the empty one leaves the observed value. -/
theorem c9_witness :
    ∃ scope2,
      closureScope ⟨Option.none, Option.none, [], [("x", Option.none)], Option.none⟩
          ⟨[⟨Option.none, Value.int 2⟩]⟩ = .ok (scope2, ⟨[]⟩)
      ∧ Scope.get scope2 "x" =
          Scope.get (Scope.define [("x", Value.int 1)] "x" (Value.int 2)) "x" := by
  exact c9_shadowing
    ⟨Option.none, Option.none, [("x", Value.int 1)], [("x", Option.none)], Option.none⟩
    ⟨[⟨Option.none, Value.int 2⟩]⟩
    (Scope.define [("x", Value.int 1)] "x" (Value.int 2)) ⟨[]⟩ [] "x" rfl (by simp)

/-- Claim C3: once binding succeeds and the body has been evaluated, the
call's result is resolved from the sub-context's control-flow signal: an
explicit return-with-value yields that value, a bare return yields the
body's own evaluated result, a break or continue escaping the closure is a
ForbiddenControlFlow error, and no signal yields the body's evaluated
result. -/
theorem c3_control_flow (c : Closure) (evalBody : List SourceId → Scope → BodyOutcome)
    (vm : Machine) (args : Args) (scope : Scope) (rest : Args) (out : BodyOutcome)
    (hbind : closureScope c args = .ok (scope, rest))
    (hout : evalBody (chooseRoute vm.route c.location) scope = out) :
    (∀ v, out.flow = some (.ret (some v)) →
        (Closure.call c evalBody vm args).1 = .ok v)
    ∧ (out.flow = some (.ret Option.none) →
        (Closure.call c evalBody vm args).1 = out.result)
    ∧ ((out.flow = some .brk ∨ out.flow = some .cont) →
        (Closure.call c evalBody vm args).1 = .error .forbiddenControlFlow)
    ∧ (out.flow = Option.none →
        (Closure.call c evalBody vm args).1 = out.result) := by
  refine ⟨?_, ?_, ?_, ?_⟩
  · intro v hf
    simp [Closure.call, hbind, hout, resolveFlow, hf]
  · intro hf
    simp [Closure.call, hbind, hout, resolveFlow, hf]
  · rintro (hf | hf) <;> simp [Closure.call, hbind, hout, resolveFlow, hf]
  · intro hf
    simp [Closure.call, hbind, hout, resolveFlow, hf]

/-- Witness for C3: a body signalling an explicit `return 2` makes the call
yield `2`, and a body signalling `break` makes it a ForbiddenControlFlow
error. -/
theorem c3_witness :
    (Closure.call ⟨Option.none, Option.none, [], [], Option.none⟩
        (fun _ _ => ⟨.ok (Value.int 1), some (.ret (some (Value.int 2))), []⟩)
        ⟨[], []⟩ ⟨[]⟩).1 = .ok (Value.int 2)
    ∧ (Closure.call ⟨Option.none, Option.none, [], [], Option.none⟩
        (fun _ _ => ⟨.ok (Value.int 1), some .brk, []⟩)
        ⟨[], []⟩ ⟨[]⟩).1 = .error .forbiddenControlFlow := by
  constructor
  · exact (c3_control_flow ⟨Option.none, Option.none, [], [], Option.none⟩
      (fun _ _ => ⟨.ok (Value.int 1), some (.ret (some (Value.int 2))), []⟩)
      ⟨[], []⟩ ⟨[]⟩ [] ⟨[]⟩ ⟨.ok (Value.int 1), some (.ret (some (Value.int 2))), []⟩
      rfl rfl).1 (Value.int 2) rfl
  · exact (c3_control_flow ⟨Option.none, Option.none, [], [], Option.none⟩
      (fun _ _ => ⟨.ok (Value.int 1), some .brk, []⟩)
      ⟨[], []⟩ ⟨[]⟩ [] ⟨[]⟩ ⟨.ok (Value.int 1), some .brk, []⟩
      rfl rfl).2.2.1 (Or.inl rfl)

/-- Claim C6: the recursion route for the body is the caller's route when
that is non-empty, and otherwise a fresh route holding exactly the closure's
defining-source identifier (empty when the closure has none). -/
theorem c6_route_choice (route : List SourceId) (loc : Option SourceId) :
    (route = [] → chooseRoute route loc = loc.toList)
    ∧ (route ≠ [] → chooseRoute route loc = route) := by
  constructor
  · intro h
    simp [chooseRoute, h]
  · intro h
    simp [chooseRoute, h]

/-- Witness for C6: a detached caller starts the route at the closure's
source `5`; a caller already on route `[1]` keeps it. -/
theorem c6_witness :
    chooseRoute [] (some 5) = Option.toList (some 5)
    ∧ chooseRoute [1] (some 5) = [1] := by
  constructor
  · exact (c6_route_choice [] (some 5)).1 rfl
  · exact (c6_route_choice [1] (some 5)).2 (by simp)

/-- Claim C10: whenever binding succeeds, the sub-context's dependency set is
merged into the caller's — also when the body's own result is an error and
also when a forbidden control-flow signal escapes; the merge is never rolled
back. -/
theorem c10_deps_merge (c : Closure) (evalBody : List SourceId → Scope → BodyOutcome)
    (vm : Machine) (args : Args) (scope : Scope) (rest : Args) (out : BodyOutcome)
    (hbind : closureScope c args = .ok (scope, rest))
    (hout : evalBody (chooseRoute vm.route c.location) scope = out) :
    ((Closure.call c evalBody vm args).2.1.deps = vm.deps ++ out.deps)
    ∧ (∀ e, out.result = .error e →
        (Closure.call c evalBody vm args).2.1.deps = vm.deps ++ out.deps)
    ∧ ((out.flow = some .brk ∨ out.flow = some .cont) →
        (Closure.call c evalBody vm args).2.1.deps = vm.deps ++ out.deps) := by
  refine ⟨?_, fun _ _ => ?_, fun _ => ?_⟩ <;> simp [Closure.call, hbind, hout]

/-- Witness for C10: a body that fails outright still extends the caller's
dependencies `[3]` with the sub-context's `[7]`. -/
theorem c10_witness :
    (Closure.call ⟨Option.none, Option.none, [], [], Option.none⟩
        (fun _ _ => ⟨.error (.message "boom"), Option.none, [7]⟩)
        ⟨[], [3]⟩ ⟨[]⟩).2.1.deps = [3] ++ [7] :=
  (c10_deps_merge ⟨Option.none, Option.none, [], [], Option.none⟩
    (fun _ _ => ⟨.error (.message "boom"), Option.none, [7]⟩)
    ⟨[], [3]⟩ ⟨[]⟩ [] ⟨[]⟩ ⟨.error (.message "boom"), Option.none, [7]⟩
    rfl rfl).2.1 (.message "boom") rfl

/-- Claim C7: `set(args)` runs the native set-rule when one is present and
returns its style map, otherwise yields the empty style map, and in both
cases asserts full argument consumption afterwards, failing with
UnexpectedArgument when any argument remains unconsumed. -/
theorem c7_set_rule (f : FuncRepr) (args : Args) :
    (∀ setRule m rest, FuncRepr.setRuleOf f = some setRule →
        setRule args = .ok (m, rest) →
        (rest.items = [] → Func.set f args = .ok m)
        ∧ (rest.items ≠ [] → Func.set f args = .error .unexpectedArgument))
    ∧ (FuncRepr.setRuleOf f = Option.none →
        (args.items = [] → Func.set f args = .ok StyleMap.new)
        ∧ (args.items ≠ [] → Func.set f args = .error .unexpectedArgument)) := by
  constructor
  · intro setRule m rest hsr heq
    cases f with
    | native nm fn s node =>
      cases s with
      | none => exact absurd hsr (by simp [FuncRepr.setRuleOf])
      | some s0 =>
        have hs0 : s0 = setRule := by simpa [FuncRepr.setRuleOf] using hsr
        subst hs0
        constructor
        · intro hempty
          simp [Func.set, heq, Args.finish, hempty]
        · intro hne
          simp [Func.set, heq, Args.finish, List.isEmpty_iff, hne]
    | closure c => exact absurd hsr (by simp [FuncRepr.setRuleOf])
    | withApplied w ap => exact absurd hsr (by simp [FuncRepr.setRuleOf])
  · intro hnone
    cases f with
    | native nm fn s node =>
      cases s with
      | none =>
        constructor
        · intro hempty
          simp [Func.set, Args.finish, hempty]
        · intro hne
          simp [Func.set, Args.finish, List.isEmpty_iff, hne]
      | some s0 => exact absurd hnone (by simp [FuncRepr.setRuleOf])
    | closure c =>
      constructor
      · intro hempty
        simp [Func.set, Args.finish, hempty]
      · intro hne
        simp [Func.set, Args.finish, List.isEmpty_iff, hne]
    | withApplied w ap =>
      constructor
      · intro hempty
        simp [Func.set, Args.finish, hempty]
      · intro hne
        simp [Func.set, Args.finish, List.isEmpty_iff, hne]

/-- Witness for C7: a native whose set-rule consumes everything yields its
style map; a closure target (no set-rule) with a stray argument fails with
UnexpectedArgument. -/
theorem c7_witness :
    Func.set (.native "f" (fun a => .ok (Value.none, a))
        (some (fun _ => .ok (⟨[("k", Value.int 1)]⟩, ⟨[]⟩))) Option.none)
        ⟨[⟨Option.none, Value.int 4⟩]⟩ = .ok ⟨[("k", Value.int 1)]⟩
    ∧ Func.set (.closure ⟨Option.none, Option.none, [], [], Option.none⟩)
        ⟨[⟨Option.none, Value.int 4⟩]⟩ = .error .unexpectedArgument := by
  constructor
  · exact ((c7_set_rule (.native "f" (fun a => .ok (Value.none, a))
      (some (fun _ => .ok (⟨[("k", Value.int 1)]⟩, ⟨[]⟩))) Option.none)
      ⟨[⟨Option.none, Value.int 4⟩]⟩).1
      (fun _ => .ok (⟨[("k", Value.int 1)]⟩, ⟨[]⟩)) ⟨[("k", Value.int 1)]⟩ ⟨[]⟩
      rfl rfl).1 rfl
  · exact ((c7_set_rule (.closure ⟨Option.none, Option.none, [], [], Option.none⟩)
      ⟨[⟨Option.none, Value.int 4⟩]⟩).2 rfl).2 (by simp)

/-! ## The `Arc` copy-on-write model for `Array`

`Array(Arc<Vec<Value>>)` has its mutators go through `Arc::make_mut`, which
clones the backing vector into a fresh allocation whenever the reference
count exceeds one.  `CowWorld` makes the allocations and handles explicit:
`slots` is the storage arena, `handle` maps each live handle to its slot,
and the reference count of a slot is the number of live handles on it. -/

/-- The explicit heap of backing storages and `Array` handles. -/
structure CowWorld where
  slots : Nat → List Value
  nslots : Nat
  handle : Nat → Nat
  nhandles : Nat

/-- Every live handle points at an allocated slot. -/
def CowWorld.wf (w : CowWorld) : Prop :=
  ∀ h, h < w.nhandles → w.handle h < w.nslots

/-- The strong reference count of a slot: how many live handles share it. -/
def CowWorld.refcount (w : CowWorld) (s : Nat) : Nat :=
  ((Finset.range w.nhandles).filter (fun h => w.handle h = s)).card

/-- What a handle observes: the contents of its slot (`Array`'s `PartialEq`
and reads go through the `Arc` to the vector). -/
def CowWorld.contents (w : CowWorld) (h : Nat) : List Value :=
  w.slots (w.handle h)

/-- Embedding of `Array::clone` (the derived `Clone` on the `Arc`): a new
handle on the same slot; the old handle is returned unchanged. -/
def CowWorld.cloneHandle (w : CowWorld) (h : Nat) : CowWorld × Nat :=
  ({ w with
      handle := fun i => if i = w.nhandles then w.handle h else w.handle i
      nhandles := w.nhandles + 1 },
    w.nhandles)

/-- Embedding of `Arc::make_mut` followed by a vector mutation `f` (the
common shape of `push`, `pop`, `insert`, `remove`, `get_mut` and `extend`,
lines 56-96 and 293-297): if the handle's slot is shared, clone the storage
into a fresh slot and point only this handle at it, then apply `f` to this
handle's storage. -/
def CowWorld.makeMut (w : CowWorld) (h : Nat) (f : List Value → List Value) : CowWorld :=
  let s := w.handle h
  if 1 < CowWorld.refcount w s then
    { w with
        slots := fun j => if j = w.nslots then f (w.slots s) else w.slots j
        nslots := w.nslots + 1
        handle := fun i => if i = h then w.nslots else w.handle i }
  else
    { w with slots := fun j => if j = s then f (w.slots j) else w.slots j }

/-- Embedding of `Array::push` (lines 64-66) over the explicit heap. -/
def CowWorld.push (w : CowWorld) (h : Nat) (v : Value) : CowWorld :=
  CowWorld.makeMut w h (fun l => l ++ [v])

theorem cloneHandle_contents (w : CowWorld) (h g : Nat) (hg : g < w.nhandles) :
    CowWorld.contents (CowWorld.cloneHandle w h).1 g = CowWorld.contents w g := by
  have : g ≠ w.nhandles := by omega
  simp [CowWorld.cloneHandle, CowWorld.contents, this]

theorem cloneHandle_contents_new (w : CowWorld) (h : Nat) :
    CowWorld.contents (CowWorld.cloneHandle w h).1 (CowWorld.cloneHandle w h).2 =
      CowWorld.contents w h := by
  simp [CowWorld.cloneHandle, CowWorld.contents]

theorem cloneHandle_wf (w : CowWorld) (h : Nat) (hwf : CowWorld.wf w)
    (hh : h < w.nhandles) : CowWorld.wf (CowWorld.cloneHandle w h).1 := by
  intro g hg
  simp only [CowWorld.cloneHandle] at hg ⊢
  by_cases hgn : g = w.nhandles
  · simpa [hgn] using hwf h hh
  · simpa [hgn] using hwf g (by omega)

/-- The frame property of `make_mut`: a mutation through handle `b` is
invisible to every other handle `g`.  When the slot is shared the mutation
goes to a fresh slot only `b` points at; when it is not shared no other
handle can point at it. -/
theorem makeMut_frame (w : CowWorld) (f : List Value → List Value) (b g : Nat)
    (hwf : CowWorld.wf w) (hb : b < w.nhandles) (hg : g < w.nhandles) (hne : g ≠ b) :
    CowWorld.contents (CowWorld.makeMut w b f) g = CowWorld.contents w g := by
  unfold CowWorld.makeMut
  by_cases hshared : 1 < CowWorld.refcount w (w.handle b)
  · have hslot : w.handle g < w.nslots := hwf g hg
    have hgn : w.handle g ≠ w.nslots := by omega
    simp [CowWorld.contents, hshared, hne, hgn]
  · have hgb : w.handle g ≠ w.handle b := by
      intro heq
      apply hshared
      apply Finset.one_lt_card.mpr
      refine ⟨g, ?_, b, ?_, hne⟩
      · simp [Finset.mem_filter, Finset.mem_range, hg, heq]
      · simp [Finset.mem_filter, Finset.mem_range, hb]
    simp [CowWorld.contents, hshared, hgb]

/-- Claim C2: a mutation through one handle of shared storage leaves every
other handle observing the original contents.  First conjunct: the general
frame property for any `make_mut`-style mutator (push, pop, insert, remove,
get_mut, extend).  Second conjunct: the literal scenario — after
`let a = s.clone(); let mut b = s.clone(); b.push(x);` both `a` and `s`
still observe the original contents, so `a == s` still holds. -/
theorem c2_cow_frame (w : CowWorld) (hwf : CowWorld.wf w) :
    (∀ f b g, b < w.nhandles → g < w.nhandles → g ≠ b →
        CowWorld.contents (CowWorld.makeMut w b f) g = CowWorld.contents w g)
    ∧ (∀ s x, s < w.nhandles →
        CowWorld.contents
            (CowWorld.push
              ((CowWorld.cloneHandle (CowWorld.cloneHandle w s).1 s).1)
              ((CowWorld.cloneHandle (CowWorld.cloneHandle w s).1 s).2) x)
            ((CowWorld.cloneHandle w s).2) = CowWorld.contents w s
        ∧ CowWorld.contents
            (CowWorld.push
              ((CowWorld.cloneHandle (CowWorld.cloneHandle w s).1 s).1)
              ((CowWorld.cloneHandle (CowWorld.cloneHandle w s).1 s).2) x)
            s = CowWorld.contents w s) := by
  constructor
  · intro f b g hb hg hne
    exact makeMut_frame w f b g hwf hb hg hne
  · intro s x hs
    have hw1 : CowWorld.wf (CowWorld.cloneHandle w s).1 := cloneHandle_wf w s hwf hs
    have hs1 : s < (CowWorld.cloneHandle w s).1.nhandles := by
      simp [CowWorld.cloneHandle]
      omega
    have hw2 : CowWorld.wf (CowWorld.cloneHandle (CowWorld.cloneHandle w s).1 s).1 :=
      cloneHandle_wf (CowWorld.cloneHandle w s).1 s hw1 hs1
    have hna : (CowWorld.cloneHandle w s).2 = w.nhandles := rfl
    have hnb : (CowWorld.cloneHandle (CowWorld.cloneHandle w s).1 s).2 = w.nhandles + 1 :=
      rfl
    have hn2 : (CowWorld.cloneHandle (CowWorld.cloneHandle w s).1 s).1.nhandles =
        w.nhandles + 2 := rfl
    constructor
    · rw [CowWorld.push, makeMut_frame _ _ _ _ hw2 (by omega) (by omega) (by omega)]
      rw [hna, cloneHandle_contents _ _ _ (by simp [CowWorld.cloneHandle])]
      exact cloneHandle_contents_new w s
    · rw [CowWorld.push, makeMut_frame _ _ _ _ hw2 (by omega) (by omega) (by omega)]
      rw [cloneHandle_contents _ _ _ (by exact hs1), cloneHandle_contents _ _ _ hs]

/-- Witness for C2 on a concrete one-slot heap holding `(7,)`. -/
theorem c2_witness :
    (∀ f b g, b < 1 → g < 1 → g ≠ b →
        CowWorld.contents (CowWorld.makeMut ⟨fun _ => [Value.int 7], 1, fun _ => 0, 1⟩ b f) g
          = CowWorld.contents ⟨fun _ => [Value.int 7], 1, fun _ => 0, 1⟩ g)
    ∧ (∀ s x, s < 1 →
        CowWorld.contents
            (CowWorld.push
              ((CowWorld.cloneHandle
                (CowWorld.cloneHandle ⟨fun _ => [Value.int 7], 1, fun _ => 0, 1⟩ s).1 s).1)
              ((CowWorld.cloneHandle
                (CowWorld.cloneHandle ⟨fun _ => [Value.int 7], 1, fun _ => 0, 1⟩ s).1 s).2) x)
            ((CowWorld.cloneHandle ⟨fun _ => [Value.int 7], 1, fun _ => 0, 1⟩ s).2)
          = CowWorld.contents ⟨fun _ => [Value.int 7], 1, fun _ => 0, 1⟩ s
        ∧ CowWorld.contents
            (CowWorld.push
              ((CowWorld.cloneHandle
                (CowWorld.cloneHandle ⟨fun _ => [Value.int 7], 1, fun _ => 0, 1⟩ s).1 s).1)
              ((CowWorld.cloneHandle
                (CowWorld.cloneHandle ⟨fun _ => [Value.int 7], 1, fun _ => 0, 1⟩ s).1 s).2) x)
            s
          = CowWorld.contents ⟨fun _ => [Value.int 7], 1, fun _ => 0, 1⟩ s) :=
  c2_cow_frame ⟨fun _ => [Value.int 7], 1, fun _ => 0, 1⟩ (fun h hh => by simp)

/-! ## `Array::sorted`

`sorted` (lines 204-220) clones the vector, runs the standard library's
stable `sort_by` with a comparator that maps an incomparable pair to
`Ordering::Equal` while recording the first such pair into `result`, and
returns the sorted vector unless an incomparable pair was recorded.  The
stable `sort_by` is modelled as a stable insertion sort (each element is
inserted after all elements it does not strictly precede), with the
comparator state threaded through exactly as the `result` capture is:
the recorded pair is only ever set while it is still unset. -/

/-- The comparator actually fed to the sort: `partial_cmp` with incomparable
pairs treated as equal (`unwrap_or_else(.. Ordering::Equal)`). -/
def cmpOr (a b : Value) : Ordering :=
  (Value.pcmp a b).getD .eq

/-- The order the sort establishes: `a` need not come strictly after `b`. -/
def vle (a b : Value) : Prop :=
  cmpOr a b ≠ .gt

/-- Stable insertion of `x` into an already sorted prefix, threading the
first-incomparable-pair state: comparing `x` against each element in turn,
stopping before the first strictly greater element; an incomparable
comparison records the pair (if none is recorded yet) and counts as equal. -/
def insertSt (x : Value) : List Value → Option (Value × Value) → List Value × Option (Value × Value)
  | [], st => ([x], st)
  | y :: ys, st =>
    match Value.pcmp x y with
    | some Ordering.lt => (x :: y :: ys, st)
    | some _ => (y :: (insertSt x ys st).1, (insertSt x ys st).2)
    | Option.none =>
      (y :: (insertSt x ys (st.orElse (fun _ => some (x, y)))).1,
        (insertSt x ys (st.orElse (fun _ => some (x, y)))).2)

/-- The whole sort with the comparator state threaded left to right. -/
def sortStAux : List Value → List Value → Option (Value × Value) → List Value × Option (Value × Value)
  | [], acc, st => (acc, st)
  | x :: xs, acc, st => sortStAux xs (insertSt x acc st).1 (insertSt x acc st).2

/-- Embedding of `Array::sorted` (lines 204-220): run the sort; if an
incomparable pair was recorded, report the first one ("cannot order A and
B") instead of the sorted array. -/
def Arr.sorted (a : Arr) : Except String Arr :=
  match (sortStAux a.items [] Option.none).2 with
  | Option.none => .ok ⟨(sortStAux a.items [] Option.none).1⟩
  | some xy => .error ("cannot order " ++ xy.1.type_name ++ " and " ++ xy.2.type_name)

/-- The pure shadow of `insertSt`: the inserted list together with the trace
of compared pairs, in comparison order. -/
def insertTr (x : Value) : List Value → List Value × List (Value × Value)
  | [] => ([x], [])
  | y :: ys =>
    match cmpOr x y with
    | .lt => (x :: y :: ys, [(x, y)])
    | _ => (y :: (insertTr x ys).1, (x, y) :: (insertTr x ys).2)

/-- The pure shadow of `sortStAux`: sorted list plus full comparison trace. -/
def sortTrAux : List Value → List Value → List Value × List (Value × Value)
  | [], acc => (acc, [])
  | x :: xs, acc =>
    ((sortTrAux xs (insertTr x acc).1).1,
      (insertTr x acc).2 ++ (sortTrAux xs (insertTr x acc).1).2)

/-- The first incomparable pair in a comparison trace. -/
def firstBad (tr : List (Value × Value)) : Option (Value × Value) :=
  tr.find? (fun p => (Value.pcmp p.1 p.2).isNone)

theorem orElse_none_right (o : Option α) : o.orElse (fun _ => Option.none) = o := by
  cases o <;> rfl

theorem orElse_some_absorb (o : Option α) (v : α) (g : Unit → Option α) :
    (o.orElse (fun _ => some v)).orElse g = o.orElse (fun _ => some v) := by
  cases o <;> rfl

theorem orElse_assoc (o : Option α) (f g : Unit → Option α) :
    (o.orElse f).orElse g = o.orElse (fun _ => (f ()).orElse g) := by
  cases o <;> rfl

theorem none_orElse_thunk (f : Unit → Option α) : Option.none.orElse f = f () := rfl

theorem firstBad_append (t1 t2 : List (Value × Value)) :
    firstBad (t1 ++ t2) = (firstBad t1).orElse (fun _ => firstBad t2) := by
  induction t1 with
  | nil => rfl
  | cons p t1 ih =>
    by_cases h : (Value.pcmp p.1 p.2).isNone
    · simp [firstBad, List.find?_cons_of_pos, h]
    · have h1 : firstBad (p :: (t1 ++ t2)) = firstBad (t1 ++ t2) :=
        List.find?_cons_of_neg _ h
      have h2 : firstBad (p :: t1) = firstBad t1 :=
        List.find?_cons_of_neg _ h
      rw [List.cons_append, h1, h2, ih]

theorem insertSt_eq (x : Value) (ys : List Value) (st : Option (Value × Value)) :
    insertSt x ys st =
      ((insertTr x ys).1, st.orElse (fun _ => firstBad (insertTr x ys).2)) := by
  induction ys generalizing st with
  | nil => simp [insertSt, insertTr, firstBad, orElse_none_right]
  | cons y ys ih =>
    cases hp : Value.pcmp x y with
    | none =>
      have hc : cmpOr x y = .eq := by simp [cmpOr, hp]
      have hb : firstBad ((x, y) :: (insertTr x ys).2) = some (x, y) := by
        simp [firstBad, List.find?_cons_of_pos, hp]
      simp only [insertSt, hp, insertTr, hc, ih, hb, orElse_some_absorb]
    | some o =>
      cases o with
      | lt =>
        have hc : cmpOr x y = .lt := by simp [cmpOr, hp]
        have hb : firstBad [(x, y)] = Option.none := by
          simp [firstBad, List.find?_cons_of_neg, hp]
        simp only [insertSt, hp, insertTr, hc, hb, orElse_none_right]
      | eq =>
        have hc : cmpOr x y = .eq := by simp [cmpOr, hp]
        have hb : firstBad ((x, y) :: (insertTr x ys).2) = firstBad (insertTr x ys).2 := by
          simp [firstBad, List.find?_cons_of_neg, hp]
        simp only [insertSt, hp, insertTr, hc, ih, hb]
      | gt =>
        have hc : cmpOr x y = .gt := by simp [cmpOr, hp]
        have hb : firstBad ((x, y) :: (insertTr x ys).2) = firstBad (insertTr x ys).2 := by
          simp [firstBad, List.find?_cons_of_neg, hp]
        simp only [insertSt, hp, insertTr, hc, ih, hb]

theorem sortStAux_eq (xs acc : List Value) (st : Option (Value × Value)) :
    sortStAux xs acc st =
      ((sortTrAux xs acc).1, st.orElse (fun _ => firstBad (sortTrAux xs acc).2)) := by
  induction xs generalizing acc st with
  | nil => simp [sortStAux, sortTrAux, firstBad, orElse_none_right]
  | cons x xs ih =>
    simp only [sortStAux, sortTrAux, insertSt_eq, ih, firstBad_append, orElse_assoc]

theorem cmpInt_swap (a b : Int) : cmpInt b a = (cmpInt a b).swap := by
  unfold cmpInt
  split_ifs <;> first | rfl | omega

theorem cmpBool_swap (a b : Bool) : cmpBool b a = (cmpBool a b).swap := by
  cases a <;> cases b <;> rfl

theorem pcmp_swap (a b : Value) : Value.pcmp b a = (Value.pcmp a b).map Ordering.swap := by
  cases a <;> cases b <;> try rfl
  · exact congrArg some (cmpBool_swap _ _)
  · exact congrArg some (cmpInt_swap _ _)

theorem cmpInt_lt_iff (a b : Int) : cmpInt a b = .lt ↔ a < b := by
  unfold cmpInt
  split_ifs <;> simp_all

theorem cmpInt_not_gt (a b : Int) : ¬ cmpInt a b = .gt ↔ a ≤ b := by
  unfold cmpInt
  split_ifs <;> simp_all <;> omega

theorem vle_of_lt {x y : Value} (h : cmpOr x y = .lt) : vle x y := by
  simp [vle, h]

theorem vle_of_not_lt {x y : Value} (h : cmpOr x y ≠ .lt) : vle y x := by
  cases hp : Value.pcmp x y with
  | none =>
    have hyx : Value.pcmp y x = Option.none := by
      rw [pcmp_swap, hp]
      rfl
    simp [vle, cmpOr, hyx]
  | some o =>
    have hyx : Value.pcmp y x = some o.swap := by
      rw [pcmp_swap, hp]
      rfl
    have ho : o ≠ .lt := by
      intro hh
      exact h (by simp [cmpOr, hp, hh])
    cases o with
    | lt => exact absurd rfl ho
    | eq => simp [vle, cmpOr, hyx, Ordering.swap]
    | gt => simp [vle, cmpOr, hyx, Ordering.swap]

theorem lt_le_trans_v (x y z : Value) (h1 : cmpOr x y = .lt) (h2 : vle y z) : vle x z := by
  cases x <;> cases y <;> try (simp [cmpOr, Value.pcmp] at h1)
  · -- both booleans
    rename_i a b
    cases z with
    | bool c =>
      revert h1 h2
      simp only [vle]
      cases a <;> cases b <;> cases c <;> decide
    | none => simp [vle, cmpOr, Value.pcmp]
    | int i => simp [vle, cmpOr, Value.pcmp]
    | arr l => simp [vle, cmpOr, Value.pcmp]
  · -- both integers
    rename_i a b
    cases z with
    | int c =>
      have ha : a < b := (cmpInt_lt_iff a b).mp h1
      have hb : b ≤ c := by
        have h2i : ¬ cmpInt b c = .gt := by simpa [vle, cmpOr, Value.pcmp] using h2
        exact (cmpInt_not_gt b c).mp h2i
      have hac : ¬ cmpInt a c = .gt := (cmpInt_not_gt a c).mpr (by omega)
      simpa [vle, cmpOr, Value.pcmp] using hac
    | none => simp [vle, cmpOr, Value.pcmp]
    | bool c => simp [vle, cmpOr, Value.pcmp]
    | arr l => simp [vle, cmpOr, Value.pcmp]

theorem perm_insertTr (x : Value) (ys : List Value) :
    (insertTr x ys).1.Perm (x :: ys) := by
  induction ys with
  | nil => simp [insertTr]
  | cons y ys ih =>
    cases hc : cmpOr x y with
    | lt => simp [insertTr, hc]
    | eq =>
      simp only [insertTr, hc]
      exact (ih.cons y).trans (List.Perm.swap x y ys)
    | gt =>
      simp only [insertTr, hc]
      exact (ih.cons y).trans (List.Perm.swap x y ys)

theorem mem_insertTr (x z : Value) (ys : List Value) :
    z ∈ (insertTr x ys).1 ↔ z = x ∨ z ∈ ys := by
  rw [(perm_insertTr x ys).mem_iff]
  simp

theorem sorted_insertTr (x : Value) (acc : List Value) (hs : List.Sorted vle acc) :
    List.Sorted vle (insertTr x acc).1 := by
  induction acc with
  | nil => simp [insertTr]
  | cons y ys ih =>
    rw [List.sorted_cons] at hs
    obtain ⟨hy, hys⟩ := hs
    cases hc : cmpOr x y with
    | lt =>
      simp only [insertTr, hc]
      rw [List.sorted_cons]
      refine ⟨?_, List.sorted_cons.mpr ⟨hy, hys⟩⟩
      intro z hz
      rcases List.mem_cons.mp hz with rfl | hz
      · exact vle_of_lt hc
      · exact lt_le_trans_v x y z hc (hy z hz)
    | eq =>
      simp only [insertTr, hc]
      rw [List.sorted_cons]
      refine ⟨?_, ih hys⟩
      intro z hz
      rcases (mem_insertTr x z ys).mp hz with rfl | hz
      · exact vle_of_not_lt (by simp [hc])
      · exact hy z hz
    | gt =>
      simp only [insertTr, hc]
      rw [List.sorted_cons]
      refine ⟨?_, ih hys⟩
      intro z hz
      rcases (mem_insertTr x z ys).mp hz with rfl | hz
      · exact vle_of_not_lt (by simp [hc])
      · exact hy z hz

theorem perm_sortTrAux (xs : List Value) : ∀ acc, (sortTrAux xs acc).1.Perm (xs ++ acc) := by
  induction xs with
  | nil => intro acc; simp [sortTrAux]
  | cons x xs ih =>
    intro acc
    have h1 := ih (insertTr x acc).1
    have h2 : (xs ++ (insertTr x acc).1).Perm (xs ++ (x :: acc)) :=
      List.Perm.append_left xs (perm_insertTr x acc)
    have h3 : (xs ++ (x :: acc)).Perm (x :: (xs ++ acc)) := List.perm_middle
    simpa [sortTrAux] using (h1.trans h2).trans h3

theorem sorted_sortTrAux (xs : List Value) :
    ∀ acc, List.Sorted vle acc → List.Sorted vle (sortTrAux xs acc).1 := by
  induction xs with
  | nil => intro acc hs; simpa [sortTrAux] using hs
  | cons x xs ih =>
    intro acc hs
    simpa [sortTrAux] using ih (insertTr x acc).1 (sorted_insertTr x acc hs)

theorem pairs_insertTr (x : Value) (ys : List Value) (p : Value × Value)
    (hp : p ∈ (insertTr x ys).2) : p.1 = x ∧ p.2 ∈ ys := by
  induction ys with
  | nil => simp [insertTr] at hp
  | cons y ys ih =>
    cases hc : cmpOr x y with
    | lt =>
      rw [insertTr] at hp
      simp only [hc] at hp
      simp only [List.mem_singleton] at hp
      subst hp
      exact ⟨rfl, List.mem_cons_self y ys⟩
    | eq =>
      rw [insertTr] at hp
      simp only [hc] at hp
      rcases List.mem_cons.mp hp with rfl | hp
      · exact ⟨rfl, List.mem_cons_self y ys⟩
      · obtain ⟨h1, h2⟩ := ih hp
        exact ⟨h1, List.mem_cons_of_mem y h2⟩
    | gt =>
      rw [insertTr] at hp
      simp only [hc] at hp
      rcases List.mem_cons.mp hp with rfl | hp
      · exact ⟨rfl, List.mem_cons_self y ys⟩
      · obtain ⟨h1, h2⟩ := ih hp
        exact ⟨h1, List.mem_cons_of_mem y h2⟩

theorem pairs_sortTrAux (xs : List Value) :
    ∀ acc (p : Value × Value), p ∈ (sortTrAux xs acc).2 →
      p.1 ∈ xs ∧ (p.2 ∈ xs ∨ p.2 ∈ acc) := by
  induction xs with
  | nil => intro acc p hp; simp [sortTrAux] at hp
  | cons x xs ih =>
    intro acc p hp
    rw [sortTrAux] at hp
    rcases List.mem_append.mp hp with hp | hp
    · obtain ⟨h1, h2⟩ := pairs_insertTr x acc p hp
      exact ⟨by simp [h1], Or.inr h2⟩
    · obtain ⟨h1, h2⟩ := ih (insertTr x acc).1 p hp
      refine ⟨List.mem_cons_of_mem x h1, ?_⟩
      rcases h2 with h2 | h2
      · exact Or.inl (List.mem_cons_of_mem x h2)
      · rcases (mem_insertTr x p.2 acc).mp h2 with rfl | h2
        · exact Or.inl (List.mem_cons_self p.2 xs)
        · exact Or.inr h2

theorem firstBad_sortTr_none (l : List Value)
    (h : ∀ a ∈ l, ∀ b ∈ l, (Value.pcmp a b).isSome) :
    firstBad (sortTrAux l []).2 = Option.none := by
  apply List.find?_eq_none.mpr
  intro p hp
  obtain ⟨h1, h2⟩ := pairs_sortTrAux l [] p hp
  have h2' : p.2 ∈ l := by
    rcases h2 with h2 | h2
    · exact h2
    · simp at h2
  have := h p.1 h1 p.2 h2'
  simp [Option.isNone_iff_eq_none]
  intro hn
  rw [hn] at this
  simp at this

/-- Claim C4: `sorted()` runs the sort to completion treating every
incomparable pair as equal.  If the comparison sequence hit no incomparable
pair, the result is a new array that is a permutation of the input ordered
by the elements' partial order; if it did, the result is the error naming
the first incomparable pair encountered ("cannot order A and B") instead of
an array — and a fully comparable input never takes the error path. -/
theorem c4_sorted_spec (a : Arr) :
    (firstBad (sortTrAux a.items []).2 = Option.none →
        Arr.sorted a = .ok ⟨(sortTrAux a.items []).1⟩
        ∧ List.Sorted vle (sortTrAux a.items []).1
        ∧ (sortTrAux a.items []).1.Perm a.items)
    ∧ (∀ x y, firstBad (sortTrAux a.items []).2 = some (x, y) →
        Arr.sorted a = .error ("cannot order " ++ x.type_name ++ " and " ++ y.type_name)
        ∧ Value.pcmp x y = Option.none ∧ x ∈ a.items ∧ y ∈ a.items)
    ∧ ((∀ x ∈ a.items, ∀ y ∈ a.items, (Value.pcmp x y).isSome) →
        firstBad (sortTrAux a.items []).2 = Option.none) := by
  refine ⟨?_, ?_, ?_⟩
  · intro hnone
    have hperm : (sortTrAux a.items []).1.Perm a.items := by
      simpa using perm_sortTrAux a.items []
    refine ⟨?_, sorted_sortTrAux a.items [] (by simp), hperm⟩
    unfold Arr.sorted
    rw [sortStAux_eq, none_orElse_thunk, hnone]
  · intro x y hsome
    refine ⟨?_, ?_, ?_, ?_⟩
    · unfold Arr.sorted
      rw [sortStAux_eq, none_orElse_thunk, hsome]
    · have := List.find?_some hsome
      simpa [Option.isNone_iff_eq_none] using this
    · have hmem := List.mem_of_find?_eq_some hsome
      exact (pairs_sortTrAux a.items [] (x, y) hmem).1
    · have hmem := List.mem_of_find?_eq_some hsome
      have h2 := (pairs_sortTrAux a.items [] (x, y) hmem).2
      rcases h2 with h2 | h2
      · exact h2
      · simp at h2
  · exact firstBad_sortTr_none a.items

/-- Witness for C4: `(2, 1)` sorts to `(1, 2)`; `(1, true)` reports that a
boolean and an integer cannot be ordered. -/
theorem c4_witness :
    Arr.sorted ⟨[Value.int 2, Value.int 1]⟩ = .ok ⟨[Value.int 1, Value.int 2]⟩
    ∧ Arr.sorted ⟨[Value.int 1, Value.bool true]⟩ =
        .error ("cannot order " ++ (Value.bool true).type_name ++ " and "
          ++ (Value.int 1).type_name) := by
  constructor
  · exact ((c4_sorted_spec ⟨[Value.int 2, Value.int 1]⟩).1 rfl).1
  · exact ((c4_sorted_spec ⟨[Value.int 1, Value.bool true]⟩).2.1
      (Value.bool true) (Value.int 1) rfl).1
